import Mathlib

/-!
Shallow embedding of `train.py` from the `triplet-reid` repository,
covering the PK-batch sampling pipeline (`sample_k_fids_for_pid` and the
dataset construction in `main`), the argument resume/merge logic, the
pre-training prelude (directory checks, `args.json` persistence, fatal
argument checks) and the training loop with its final checkpoint save.
-/

namespace TripletReid

/-! ## The K-selector `sample_k_fids_for_pid` (train.py lines 156-172) -/

/-- Integer ceiling division, modelling `tf.math.ceil(batch_k / count)`
applied to positive integers (exact for the integer ranges used here). -/
def ceilDivNat (a b : Nat) : Nat := (a + b - 1) / b

/-- The FIDs whose PID equals the requested one:
`tf.boolean_mask(all_fids, tf.equal(all_pids, pid))` (line 158). -/
def possibleFids {α β : Type} [DecidableEq α] (allFids : List β) (allPids : List α)
    (pid : α) : List β :=
  ((allFids.zip allPids).filter (fun fp => fp.2 == pid)).map (fun fp => fp.1)

/-- Padded pool size: `ceil(batch_k / count) * count` (line 165). -/
def paddedCount (K count : Nat) : Nat := ceilDivNat K count * count

/-- The padded index pool `tf.math.mod(tf.range(padded_count), count)` (line 166). -/
def fullRange (K count : Nat) : List Nat :=
  (List.range (paddedCount K count)).map (fun i => i % count)

/-- Gather `l` at the given indices, `none` when an index is out of range,
modelling `tf.gather(possible_fids, indices)` (line 170). -/
def gatherOpt {β : Type} (l : List β) : List Nat → Option (List β)
  | [] => some []
  | i :: rest =>
    match l[i]?, gatherOpt l rest with
    | some x, some xs => some (x :: xs)
    | _, _ => none

/-- The K-selector: given a shuffle outcome `shuffled` of the padded index
pool, take the first K indices, gather the matching FIDs, and pair them with
`tf.fill([batch_k], pid)` (lines 156-172). -/
def sampleKFidsForPid {α β : Type} [DecidableEq α] (allFids : List β) (allPids : List α)
    (pid : α) (K : Nat) (shuffled : List Nat) : Option (List β × List α) :=
  match gatherOpt (possibleFids allFids allPids pid) (shuffled.take K) with
  | some fids => some (fids, List.replicate K pid)
  | none => none

/-! ### Basic lemmas about the padded index pool -/

theorem length_fullRange (K count : Nat) :
    (fullRange K count).length = paddedCount K count := by
  simp [fullRange]

theorem mem_fullRange_lt {K count : Nat} (hc : 0 < count) :
    ∀ x ∈ fullRange K count, x < count := by
  intro x hx
  simp only [fullRange, List.mem_map] at hx
  obtain ⟨i, _, rfl⟩ := hx
  exact Nat.mod_lt _ hc

theorem le_paddedCount {K count : Nat} (hc : 0 < count) :
    K ≤ paddedCount K count := by
  unfold paddedCount ceilDivNat
  have hmod := Nat.div_add_mod (K + count - 1) count
  have hlt : (K + count - 1) % count < count := Nat.mod_lt _ hc
  have h : count * ((K + count - 1) / count) + (K + count - 1) % count
      = K + count - 1 := hmod
  rw [Nat.mul_comm]
  omega

theorem ceilDivNat_eq_one {K count : Nat} (hK : 1 ≤ K) (hc : K ≤ count) :
    ceilDivNat K count = 1 := by
  unfold ceilDivNat
  have h1 : K + count - 1 < 2 * count := by omega
  have h2 : count ≤ K + count - 1 := by omega
  have hcpos : 0 < count := by omega
  have hlo : 1 ≤ (K + count - 1) / count := (Nat.le_div_iff_mul_le hcpos).mpr (by omega)
  have hhi : (K + count - 1) / count < 2 := (Nat.div_lt_iff_lt_mul hcpos).mpr h1
  omega

/-- When `1 ≤ K ≤ count`, the padded pool is exactly `[0, ..., count-1]`. -/
theorem fullRange_eq_range {K count : Nat} (hK : 1 ≤ K) (hc : K ≤ count) :
    fullRange K count = List.range count := by
  unfold fullRange paddedCount
  rw [ceilDivNat_eq_one hK hc, Nat.one_mul]
  have : ∀ i ∈ List.range count, i % count = i := by
    intro i hi
    exact Nat.mod_eq_of_lt (List.mem_range.mp hi)
  calc (List.range count).map (fun i => i % count)
      = (List.range count).map id := List.map_congr_left this
    _ = List.range count := List.map_id _

/-- Each index below `count` occurs exactly `c` times in `range (c*count) mod count`. -/
theorem count_range_mod (c count i : Nat) (hi : i < count) :
    ((List.range (c * count)).map (fun j => j % count)).count i = c := by
  induction c with
  | zero => simp
  | succ c ih =>
    have hsplit : List.range ((c + 1) * count)
        = List.range (c * count) ++ (List.range count).map (fun j => c * count + j) := by
      rw [Nat.succ_mul, List.range_add]
    rw [hsplit, List.map_append, List.count_append, ih]
    have hmap : ((List.range count).map (fun j => c * count + j)).map (fun j => j % count)
        = List.range count := by
      rw [List.map_map]
      have : ∀ j ∈ List.range count, (c * count + j) % count = j := by
        intro j hj
        have := List.mem_range.mp hj
        rw [Nat.mul_comm, Nat.mul_add_mod]
        exact Nat.mod_eq_of_lt this
      calc (List.range count).map (fun j => (c * count + j) % count)
          = (List.range count).map id := List.map_congr_left this
        _ = List.range count := List.map_id _
    rw [hmap]
    have h1 : (List.range count).count i = 1 :=
      List.count_eq_one_of_mem (List.nodup_range _) (List.mem_range.mpr hi)
    omega

theorem count_fullRange {K count i : Nat} (hi : i < count) :
    (fullRange K count).count i = ceilDivNat K count := by
  unfold fullRange paddedCount
  exact count_range_mod _ _ _ hi

/-! ### Gathering lemmas -/

theorem gatherOpt_eq_map {β : Type} (l : List β) (d : β) :
    ∀ idx : List Nat, (∀ i ∈ idx, i < l.length) →
      gatherOpt l idx = some (idx.map (fun i => l.getD i d)) := by
  intro idx
  induction idx with
  | nil => intro _; rfl
  | cons i rest ih =>
    intro hb
    have hi : i < l.length := hb i (List.mem_cons_self i rest)
    have hrest : ∀ j ∈ rest, j < l.length := fun j hj => hb j (List.mem_cons_of_mem i hj)
    simp only [gatherOpt, ih hrest, List.getElem?_eq_getElem hi, List.map_cons]
    rw [List.getD_eq_getElem l d hi]

theorem map_getD_nodup {β : Type} (l : List β) (d : β) (idx : List Nat)
    (hb : ∀ i ∈ idx, i < l.length) (hidx : idx.Nodup) (hl : l.Nodup) :
    (idx.map (fun i => l.getD i d)).Nodup := by
  refine List.Nodup.map_on ?_ hidx
  intro i hi j hj he
  have hbi := hb i hi
  have hbj := hb j hj
  rw [List.getD_eq_getElem l d hbi, List.getD_eq_getElem l d hbj] at he
  exact hl.getElem_inj_iff.mp he

theorem mem_possibleFids {α β : Type} [DecidableEq α] {allFids : List β} {allPids : List α}
    {pid : α} {f : β} (h : f ∈ possibleFids allFids allPids pid) :
    (f, pid) ∈ allFids.zip allPids := by
  simp only [possibleFids, List.mem_map, List.mem_filter, beq_iff_eq] at h
  obtain ⟨⟨f1, p1⟩, ⟨hmem, hp⟩, hf⟩ := h
  simp only at hp hf
  subst hp
  subst hf
  exact hmem

/-! ### Claim theorems for the K-selector -/

/-- C4: for every identity with at least one sample and every positive K
(including K larger than the sample count), the K-selector succeeds without
error and returns exactly K samples, all belonging to the requested identity,
paired with exactly K copies of that identity's label. -/
theorem sample_k_total_success {α β : Type} [DecidableEq α]
    (allFids : List β) (allPids : List α) (pid : α) (K : Nat) (shuffled : List Nat)
    (hc : 0 < (possibleFids allFids allPids pid).length)
    (_hK : 1 ≤ K)
    (hperm : shuffled.Perm (fullRange K (possibleFids allFids allPids pid).length)) :
    ∃ fids, sampleKFidsForPid allFids allPids pid K shuffled
        = some (fids, List.replicate K pid)
      ∧ fids.length = K
      ∧ (∀ f ∈ fids, f ∈ possibleFids allFids allPids pid)
      ∧ (∀ f ∈ fids, (f, pid) ∈ allFids.zip allPids) := by
  have hb : ∀ i ∈ shuffled.take K, i < (possibleFids allFids allPids pid).length := by
    intro i hi
    have h1 : i ∈ shuffled := (List.take_sublist K shuffled).mem hi
    have h2 : i ∈ fullRange K (possibleFids allFids allPids pid).length :=
      hperm.mem_iff.mp h1
    exact mem_fullRange_lt hc i h2
  have d : β := (possibleFids allFids allPids pid).get ⟨0, hc⟩
  refine ⟨(shuffled.take K).map
      (fun i => (possibleFids allFids allPids pid).getD i d), ?_, ?_, ?_, ?_⟩
  · unfold sampleKFidsForPid
    rw [gatherOpt_eq_map _ d _ hb]
  · rw [List.length_map, List.length_take, hperm.length_eq, length_fullRange]
    exact Nat.min_eq_left (le_paddedCount hc)
  · intro f hf
    simp only [List.mem_map] at hf
    obtain ⟨i, hi, rfl⟩ := hf
    rw [List.getD_eq_getElem _ d (hb i hi)]
    exact List.getElem_mem _
  · intro f hf
    simp only [List.mem_map] at hf
    obtain ⟨i, hi, rfl⟩ := hf
    refine mem_possibleFids ?_
    rw [List.getD_eq_getElem _ d (hb i hi)]
    exact List.getElem_mem _

/-- C3: for every identity with at least K samples, the padded index pool is
exactly the range of the sample count, so the first K entries of any shuffle
of it are pairwise distinct, and (for distinct underlying FIDs) the returned
K samples contain no duplicate. -/
theorem sample_k_no_duplicates {α β : Type} [DecidableEq α]
    (allFids : List β) (allPids : List α) (pid : α) (K : Nat) (shuffled : List Nat)
    (hK : 1 ≤ K)
    (hc : K ≤ (possibleFids allFids allPids pid).length)
    (hperm : shuffled.Perm (fullRange K (possibleFids allFids allPids pid).length)) :
    fullRange K (possibleFids allFids allPids pid).length
        = List.range (possibleFids allFids allPids pid).length
      ∧ (shuffled.take K).Nodup
      ∧ ∃ fids, sampleKFidsForPid allFids allPids pid K shuffled
          = some (fids, List.replicate K pid)
        ∧ ((possibleFids allFids allPids pid).Nodup → fids.Nodup) := by
  have hcpos : 0 < (possibleFids allFids allPids pid).length := Nat.lt_of_lt_of_le hK hc
  have hrange := fullRange_eq_range hK hc
  have hnodup : shuffled.Nodup := by
    rw [hperm.nodup_iff, hrange]
    exact List.nodup_range _
  have htake : (shuffled.take K).Nodup := (List.take_sublist K shuffled).nodup hnodup
  have hb : ∀ i ∈ shuffled.take K, i < (possibleFids allFids allPids pid).length := by
    intro i hi
    have h1 : i ∈ shuffled := (List.take_sublist K shuffled).mem hi
    have h2 := hperm.mem_iff.mp h1
    exact mem_fullRange_lt hcpos i h2
  have d : β := (possibleFids allFids allPids pid).get ⟨0, hcpos⟩
  refine ⟨hrange, htake, ⟨(shuffled.take K).map
      (fun i => (possibleFids allFids allPids pid).getD i d), ?_, ?_⟩⟩
  · unfold sampleKFidsForPid
    rw [gatherOpt_eq_map _ d _ hb]
  · intro hpf
    exact map_getD_nodup _ d _ hb htake hpf

/-- C2 (counterexample): with three samples and K = 4, the shuffle outcome
`[0,0,1,1,2,2]` of the padded pool `[0,1,2,0,1,2]` leaves the third sample
appearing 0 times, strictly fewer than `floor(4/3) = 1` — refuting the
claimed floor lower bound. -/
theorem oversample_floor_counterexample :
    (possibleFids [10, 20, 30] [7, 7, 7] (7 : Nat)).length = 3
    ∧ (3 : Nat) < 4
    ∧ List.Perm [0, 0, 1, 1, 2, 2] (fullRange 4 3)
    ∧ sampleKFidsForPid [10, 20, 30] [7, 7, 7] (7 : Nat) 4 [0, 0, 1, 1, 2, 2]
        = some ([10, 10, 20, 20], [7, 7, 7, 7])
    ∧ ([10, 10, 20, 20] : List Nat).count 30 = 0
    ∧ 0 < 4 / 3 := by
  decide

/-- C2 (amended): for an identity with `0 < count < K` samples, every sample
index appears at most `ceil(K/count)` times among the K selected indices, and
exactly `K/count` times when `count` divides `K`; the `floor(K/count)` lower
bound does not hold in general. -/
theorem oversample_bounds_amended {α β : Type} [DecidableEq α]
    (allFids : List β) (allPids : List α) (pid : α) (K : Nat) (shuffled : List Nat)
    (hc : 0 < (possibleFids allFids allPids pid).length)
    (hlt : (possibleFids allFids allPids pid).length < K)
    (hperm : shuffled.Perm (fullRange K (possibleFids allFids allPids pid).length)) :
    (∀ i, (shuffled.take K).count i
        ≤ ceilDivNat K (possibleFids allFids allPids pid).length)
    ∧ ((possibleFids allFids allPids pid).length ∣ K →
        ∀ i < (possibleFids allFids allPids pid).length,
          (shuffled.take K).count i = K / (possibleFids allFids allPids pid).length) := by
  constructor
  · intro i
    have h1 : (shuffled.take K).count i ≤ shuffled.count i :=
      (List.take_sublist K shuffled).count_le i
    have h2 : shuffled.count i
        = (fullRange K (possibleFids allFids allPids pid).length).count i :=
      hperm.count_eq i
    by_cases hi : i < (possibleFids allFids allPids pid).length
    · rw [h2, count_fullRange hi] at h1
      exact h1
    · have hnm : i ∉ fullRange K (possibleFids allFids allPids pid).length := by
        intro hmem
        exact hi (mem_fullRange_lt hc i hmem)
      rw [h2, List.count_eq_zero.mpr hnm] at h1
      omega
  · intro hdvd i hi
    obtain ⟨q, hq⟩ := hdvd
    have hceil : ceilDivNat K (possibleFids allFids allPids pid).length = q := by
      unfold ceilDivNat
      have h2 : K + (possibleFids allFids allPids pid).length - 1
          = ((possibleFids allFids allPids pid).length - 1)
            + (possibleFids allFids allPids pid).length * q := by omega
      rw [h2, Nat.add_mul_div_left _ _ hc, Nat.div_eq_of_lt (by omega)]
      omega
    have hpad : paddedCount K (possibleFids allFids allPids pid).length = K := by
      unfold paddedCount
      rw [hceil, hq, Nat.mul_comm]
    have hlen : shuffled.length = K := by
      rw [hperm.length_eq, length_fullRange, hpad]
    have htake : shuffled.take K = shuffled := List.take_of_length_le (by omega)
    rw [htake, hperm.count_eq i, count_fullRange hi, hceil, hq,
      Nat.mul_div_cancel_left q hc]

/-! ### Witnesses for the K-selector theorems -/

theorem sample_k_total_success_witness :
    ∃ fids, sampleKFidsForPid [10, 20] [7, 7] (7 : Nat) 5 [0, 1, 0, 1, 0, 1]
        = some (fids, List.replicate 5 7)
      ∧ fids.length = 5
      ∧ (∀ f ∈ fids, f ∈ possibleFids [10, 20] [7, 7] (7 : Nat))
      ∧ (∀ f ∈ fids, (f, 7) ∈ List.zip [10, 20] [7, 7]) :=
  sample_k_total_success [10, 20] [7, 7] 7 5 [0, 1, 0, 1, 0, 1]
    (by decide) (by decide) (by decide)

theorem sample_k_no_duplicates_witness :
    fullRange 2 (possibleFids [10, 20, 30] [7, 7, 7] (7 : Nat)).length
        = List.range (possibleFids [10, 20, 30] [7, 7, 7] (7 : Nat)).length
      ∧ (List.take 2 [2, 0, 1]).Nodup
      ∧ ∃ fids, sampleKFidsForPid [10, 20, 30] [7, 7, 7] (7 : Nat) 2 [2, 0, 1]
          = some (fids, List.replicate 2 7)
        ∧ ((possibleFids [10, 20, 30] [7, 7, 7] (7 : Nat)).Nodup → fids.Nodup) :=
  sample_k_no_duplicates [10, 20, 30] [7, 7, 7] 7 2 [2, 0, 1]
    (by decide) (by decide) (by decide)

theorem oversample_bounds_amended_witness :
    (∀ i, (List.take 4 [0, 1, 2, 0, 1, 2]).count i
        ≤ ceilDivNat 4 (possibleFids [10, 20, 30] [7, 7, 7] (7 : Nat)).length)
    ∧ ((possibleFids [10, 20, 30] [7, 7, 7] (7 : Nat)).length ∣ 4 →
        ∀ i < (possibleFids [10, 20, 30] [7, 7, 7] (7 : Nat)).length,
          (List.take 4 [0, 1, 2, 0, 1, 2]).count i
            = 4 / (possibleFids [10, 20, 30] [7, 7, 7] (7 : Nat)).length) :=
  oversample_bounds_amended [10, 20, 30] [7, 7, 7] 7 4 [0, 1, 2, 0, 1, 2]
    (by decide) (by decide) (by decide)

/-! ## The PK-batch pipeline (train.py lines 247-287)

One epoch is a shuffle of the unique PIDs truncated to the largest multiple
of P (`dataset.take((len(unique_pids) // args.batch_p) * args.batch_p)`,
line 253); epochs repeat forever (line 254, modelled by a finite list of
shuffle outcomes); each PID is mapped to its K selected FIDs paired with K
copies of the PID (lines 257-258); the result is flattened (`unbatch`, line
261) and regrouped into chunks of `batch_p * batch_k` (lines 285-287). -/

/-- Epoch truncation (line 253). -/
def truncateEpoch {α : Type} (P : Nat) (pids : List α) : List α :=
  pids.take (pids.length / P * P)

/-- Concatenation of the truncated epochs (lines 249-254). -/
def epochConcat {α : Type} (P : Nat) (es : List (List α)) : List α :=
  es.flatMap (fun e => truncateEpoch P e)

/-- The flattened per-sample stream after `unbatch` (line 261): each PID of
the epoch stream contributes its K chosen FIDs zipped with K copies of the
PID label. `choose p` stands for the FID component returned by
`sample_k_fids_for_pid` for PID `p`. -/
def pkStream {α β : Type} (P K : Nat) (es : List (List α)) (choose : α → List β) :
    List (β × α) :=
  (epochConcat P es).flatMap (fun p => (choose p).zip (List.replicate K p))

/-- The PID-label view of the flattened stream. -/
def pidStream {α : Type} (P K : Nat) (es : List (List α)) : List α :=
  (epochConcat P es).flatMap (fun p => List.replicate K p)

/-- The m-th batch emitted by `dataset.batch(batch_size)` (line 287). -/
def nthBatch {γ : Type} (B m : Nat) (l : List γ) : List γ :=
  (l.drop (m * B)).take B

/-! ### Lemmas about flattened K-blocks -/

theorem take_flatMap_blocks {α β : Type} {f : α → List β} {K : Nat}
    (hf : ∀ p, (f p).length = K) :
    ∀ (m : Nat) (l : List α), (l.flatMap f).take (m * K) = (l.take m).flatMap f := by
  intro m
  induction m with
  | zero => intro l; simp
  | succ m ih =>
    intro l
    cases l with
    | nil => simp
    | cons a t =>
      have hsm : (m + 1) * K = K + m * K := by ring
      rw [List.take_succ_cons, List.flatMap_cons, List.flatMap_cons, hsm,
        List.take_append_eq_append_take, hf a,
        List.take_of_length_le (by rw [hf a]; omega), Nat.add_sub_cancel_left, ih t]

theorem drop_flatMap_blocks {α β : Type} {f : α → List β} {K : Nat}
    (hf : ∀ p, (f p).length = K) :
    ∀ (m : Nat) (l : List α), (l.flatMap f).drop (m * K) = (l.drop m).flatMap f := by
  intro m
  induction m with
  | zero => intro l; simp
  | succ m ih =>
    intro l
    cases l with
    | nil => simp
    | cons a t =>
      have hsm : (m + 1) * K = K + m * K := by ring
      rw [List.drop_succ_cons, List.flatMap_cons, hsm,
        List.drop_append_eq_append_drop, hf a,
        List.drop_of_length_le (by rw [hf a]; omega), Nat.add_sub_cancel_left, ih t,
        List.nil_append]

theorem length_flatMap_blocks {α β : Type} {f : α → List β} {K : Nat}
    (hf : ∀ p, (f p).length = K) :
    ∀ l : List α, (l.flatMap f).length = l.length * K := by
  intro l
  induction l with
  | nil => simp
  | cons a t ih =>
    rw [List.flatMap_cons, List.length_append, hf a, ih, List.length_cons]
    ring

/-- A P-aligned window of the concatenation of nodup lists whose lengths are
multiples of P never straddles two of them, hence is itself nodup. -/
theorem window_nodup {α : Type} {P : Nat} (hP : 0 < P) :
    ∀ (L : List (List α)) (m : Nat),
      (∀ e ∈ L, e.Nodup ∧ P ∣ e.length) →
      (((L.flatMap id).drop (m * P)).take P).Nodup := by
  intro L
  induction L with
  | nil => intro m _; simp
  | cons e rest ih =>
    intro m hL
    obtain ⟨hnodup, q, hq⟩ := hL e (List.mem_cons_self e rest)
    have hrest : ∀ x ∈ rest, x.Nodup ∧ P ∣ x.length :=
      fun x hx => hL x (List.mem_cons_of_mem e hx)
    have hqc : e.length = q * P := by rw [hq, Nat.mul_comm]
    rw [List.flatMap_cons, id_eq, List.drop_append_eq_append_drop]
    by_cases hm : q ≤ m
    · have hmul : q * P ≤ m * P := Nat.mul_le_mul_right P hm
      have hge : e.length ≤ m * P := by omega
      rw [List.drop_of_length_le hge, List.nil_append]
      have harith : m * P - e.length = (m - q) * P := by
        rw [hqc]
        exact (Nat.sub_mul m q P).symm
      rw [harith]
      exact ih (m - q) hrest
    · push_neg at hm
      have hmul : (m + 1) * P ≤ q * P := Nat.mul_le_mul_right P hm
      have h2 : (m + 1) * P = m * P + P := Nat.succ_mul m P
      have hlt : m * P < e.length := by omega
      have hsub : m * P - e.length = 0 := by omega
      have hlenA : P ≤ (e.drop (m * P)).length := by
        rw [List.length_drop, hqc]
        omega
      rw [hsub, List.drop_zero, List.take_append_eq_append_take,
        Nat.sub_eq_zero_of_le hlenA, List.take_zero, List.append_nil]
      exact ((List.take_sublist _ _).trans (List.drop_sublist _ _)).nodup hnodup

theorem count_flatMap_replicate {α : Type} [DecidableEq α] {K : Nat} :
    ∀ g : List α, g.Nodup → ∀ q,
      (g.flatMap (fun p => List.replicate K p)).count q = if q ∈ g then K else 0 := by
  intro g
  induction g with
  | nil => intro _ q; simp
  | cons a t ih =>
    intro hnd q
    have hat : a ∉ t := (List.nodup_cons.mp hnd).1
    have ht : t.Nodup := (List.nodup_cons.mp hnd).2
    rw [List.flatMap_cons, List.count_append, ih ht q]
    by_cases h : q = a
    · subst h
      simp [List.count_replicate, hat]
    · simp only [List.count_replicate, List.mem_cons, h, if_false, false_or]
      by_cases hqt : q ∈ t
      · simp [hqt, Ne.symm h]
      · simp [hqt, Ne.symm h]

theorem flatMap_map_id {α β : Type} (l : List α) (f : α → List β) :
    (l.map f).flatMap id = l.flatMap f := by
  induction l with
  | nil => rfl
  | cons a t ih => simp [ih]

theorem truncateEpoch_nodup {α : Type} {P : Nat} {e : List α} (h : e.Nodup) :
    (truncateEpoch P e).Nodup :=
  (List.take_sublist _ _).nodup h

theorem dvd_length_truncateEpoch {α : Type} (P : Nat) (e : List α) :
    P ∣ (truncateEpoch P e).length := by
  unfold truncateEpoch
  rw [List.length_take, Nat.min_eq_left (Nat.div_mul_le_self _ _)]
  exact ⟨e.length / P, Nat.mul_comm _ _⟩

/-- C1: every emitted PK batch has length exactly `P*K` and consists of P
contiguous K-blocks over P distinct identities, each identity occurring
exactly K times — the `unbatch` then `batch(P*K)` stage exactly undoes the
flattening, given that each epoch is a shuffle of the unique PIDs truncated
to a multiple of P. -/
theorem pk_batch_structure {α β : Type} [DecidableEq α]
    (P K m : Nat) (uniquePids : List α) (es : List (List α)) (choose : α → List β)
    (hP : 0 < P) (hK : 0 < K)
    (hu : uniquePids.Nodup)
    (hes : ∀ e ∈ es, e.Perm uniquePids)
    (hch : ∀ p, (choose p).length = K)
    (hm : (m + 1) * (P * K) ≤ (pkStream P K es choose).length) :
    (nthBatch (P * K) m (pkStream P K es choose)).length = P * K
    ∧ ∃ g : List α, g.Nodup ∧ g.length = P
      ∧ (nthBatch (P * K) m (pkStream P K es choose)).map Prod.snd
          = g.flatMap (fun p => List.replicate K p)
      ∧ (∀ q, ((nthBatch (P * K) m (pkStream P K es choose)).map Prod.snd).count q
          = if q ∈ g then K else 0)
      ∧ ((nthBatch (P * K) m (pkStream P K es choose)).map Prod.snd).toFinset.card
          = P := by
  have hblock : ∀ p : α, ((choose p).zip (List.replicate K p)).length = K := by
    intro p
    rw [List.length_zip, hch p, List.length_replicate]
    exact Nat.min_self K
  have hrep : ∀ p : α, (List.replicate K p).length = K := fun p => List.length_replicate K p
  have hlenS : (pkStream P K es choose).length = (epochConcat P es).length * K :=
    length_flatMap_blocks hblock _
  have hsucc : (m + 1) * (P * K) = m * (P * K) + P * K := Nat.succ_mul _ _
  have hlenB : (nthBatch (P * K) m (pkStream P K es choose)).length = P * K := by
    unfold nthBatch
    rw [List.length_take, List.length_drop, Nat.min_eq_left]
    omega
  have hzipmap : ∀ p : α,
      ((choose p).zip (List.replicate K p)).map Prod.snd = List.replicate K p := by
    intro p
    exact List.map_snd_zip _ _ (by rw [hch p, List.length_replicate])
  have hmapstream : (pkStream P K es choose).map Prod.snd = pidStream P K es := by
    unfold pkStream pidStream
    rw [List.map_flatMap]
    simp only [hzipmap]
  have hsnd : (nthBatch (P * K) m (pkStream P K es choose)).map Prod.snd
      = nthBatch (P * K) m (pidStream P K es) := by
    unfold nthBatch
    rw [List.map_take, List.map_drop, hmapstream]
  have hdecomp : nthBatch (P * K) m (pidStream P K es)
      = (((epochConcat P es).drop (m * P)).take P).flatMap
          (fun p => List.replicate K p) := by
    unfold nthBatch pidStream
    rw [show m * (P * K) = m * P * K by ring, drop_flatMap_blocks hrep,
      take_flatMap_blocks hrep]
  have hA : epochConcat P es = (es.map (fun e => truncateEpoch P e)).flatMap id := by
    unfold epochConcat
    rw [flatMap_map_id]
  have hgnodup : (((epochConcat P es).drop (m * P)).take P).Nodup := by
    rw [hA]
    refine window_nodup hP _ m ?_
    intro x hx
    obtain ⟨e, he, rfl⟩ := List.mem_map.mp hx
    refine ⟨truncateEpoch_nodup ((hes e he).nodup_iff.mpr hu), dvd_length_truncateEpoch P e⟩
  have hmP : (m + 1) * P ≤ (epochConcat P es).length := by
    have h1 : (m + 1) * P * K ≤ (epochConcat P es).length * K := by
      rw [show (m + 1) * P * K = (m + 1) * (P * K) by ring, ← hlenS]
      exact hm
    exact Nat.le_of_mul_le_mul_right h1 hK
  have hsucc2 : (m + 1) * P = m * P + P := Nat.succ_mul _ _
  have hglen : (((epochConcat P es).drop (m * P)).take P).length = P := by
    rw [List.length_take, List.length_drop, Nat.min_eq_left]
    omega
  refine ⟨hlenB, ((epochConcat P es).drop (m * P)).take P, hgnodup, hglen, ?_, ?_, ?_⟩
  · rw [hsnd, hdecomp]
  · intro q
    rw [hsnd, hdecomp]
    exact count_flatMap_replicate _ hgnodup q
  · rw [hsnd, hdecomp]
    have hfin : ((((epochConcat P es).drop (m * P)).take P).flatMap
        (fun p => List.replicate K p)).toFinset
        = (((epochConcat P es).drop (m * P)).take P).toFinset := by
      ext q
      simp only [List.mem_toFinset, List.mem_flatMap, List.mem_replicate]
      constructor
      · rintro ⟨p, hp, -, rfl⟩
        exact hp
      · intro hq
        exact ⟨q, hq, by omega, rfl⟩
    rw [hfin, List.toFinset_card_of_nodup hgnodup, hglen]

/-- Concrete choice function for the C1 witness: each PID maps to two
distinct FIDs. -/
def witnessChoose (p : Nat) : List Nat := [10 * p, 10 * p + 1]

theorem pk_batch_structure_witness :
    (nthBatch (2 * 2) 1 (pkStream 2 2 [[2, 0, 3, 1]] witnessChoose)).length = 2 * 2
    ∧ ∃ g : List Nat, g.Nodup ∧ g.length = 2
      ∧ (nthBatch (2 * 2) 1 (pkStream 2 2 [[2, 0, 3, 1]] witnessChoose)).map Prod.snd
          = g.flatMap (fun p => List.replicate 2 p)
      ∧ (∀ q, ((nthBatch (2 * 2) 1
            (pkStream 2 2 [[2, 0, 3, 1]] witnessChoose)).map Prod.snd).count q
          = if q ∈ g then 2 else 0)
      ∧ ((nthBatch (2 * 2) 1
            (pkStream 2 2 [[2, 0, 3, 1]] witnessChoose)).map Prod.snd).toFinset.card
          = 2 :=
  pk_batch_structure 2 2 1 [0, 1, 2, 3] [[2, 0, 3, 1]] witnessChoose
    (by decide) (by decide) (by decide) (by decide) (fun p => rfl) (by decide)

/-- C5 (counterexample): with only two unique identities and P = 3, the
sampler setup raises no configuration error: the epoch is truncated to the
empty list and the pipeline proceeds, producing empty batches. -/
theorem insufficient_pids_counterexample :
    truncateEpoch 3 [0, 1] = ([] : List Nat)
    ∧ epochConcat 3 [[0, 1], [1, 0]] = ([] : List Nat)
    ∧ nthBatch (3 * 4) 0 (pkStream 3 4 [[0, 1], [1, 0]] (fun p => [p, p, p, p])) = [] := by
  decide

/-- C5 (amended): if the dataset contains fewer than P unique identities, the
setup does not fail; every epoch is truncated to the empty list and the
pipeline emits no batches at all. -/
theorem insufficient_pids_empty_epoch {α β : Type} (P K : Nat) (uniquePids : List α)
    (es : List (List α)) (choose : α → List β) (m B : Nat)
    (hlt : uniquePids.length < P)
    (hes : ∀ e ∈ es, e.Perm uniquePids) :
    (∀ e ∈ es, truncateEpoch P e = []) ∧ pkStream P K es choose = []
    ∧ nthBatch B m (pkStream P K es choose) = [] := by
  have htr : ∀ e ∈ es, truncateEpoch P e = [] := by
    intro e he
    have hlen : e.length = uniquePids.length := (hes e he).length_eq
    unfold truncateEpoch
    rw [Nat.div_eq_of_lt (by omega), Nat.zero_mul, List.take_zero]
  have hconcat : epochConcat P es = [] := by
    unfold epochConcat
    rw [List.flatMap_eq_nil_iff]
    exact htr
  have hstream : pkStream P K es choose = [] := by
    unfold pkStream
    rw [hconcat]
    rfl
  refine ⟨htr, hstream, ?_⟩
  unfold nthBatch
  rw [hstream]
  simp

theorem insufficient_pids_empty_epoch_witness :
    (∀ e ∈ [[1, 0]], truncateEpoch 3 e = ([] : List Nat))
    ∧ pkStream 3 1 [[1, 0]] (fun p => [p]) = []
    ∧ nthBatch 3 0 (pkStream 3 1 [[1, 0]] (fun p => [p])) = [] :=
  insufficient_pids_empty_epoch 3 1 [0, 1] [[1, 0]] (fun p => [p]) 0 3
    (by decide) (by decide)

/-! ## Resume argument merging (train.py lines 182-204)

When resuming, the persisted `args.json` is loaded, its `resume` entry is
overwritten with true (line 189), and then every freshly supplied argument is
compared with the persisted one: on disagreement the persisted value wins and
a warning is printed (lines 194-201); arguments absent from the file keep the
fresh value with a new-argument warning (lines 202-204). No exception is
raised on conflicts. -/

/-- A warning printed during the resume merge. -/
inductive ArgWarning (V : Type) where
  | conflict (key : String) (loaded given : V)
  | newArg (key : String) (given : V)
deriving DecidableEq

/-- Overwrite (or append) one key of an association list, modelling the
Python dict assignment `args_resumed[key] = value`. -/
def setKey {V : Type} (k : String) (v : V) (l : List (String × V)) : List (String × V) :=
  if (l.lookup k).isSome then
    l.map (fun kv => if kv.1 = k then (k, v) else kv)
  else
    l ++ [(k, v)]

/-- The merge of lines 194-204: walk the fresh arguments; a key present in
the resumed file takes the loaded value (with a conflict warning when the
values differ), a key absent from it keeps the fresh value with a
new-argument warning. -/
def resolveArgs {V : Type} [DecidableEq V] :
    List (String × V) → List (String × V) → List (String × V) × List (ArgWarning V)
  | [], _ => ([], [])
  | (k, v) :: rest, resumed =>
    match resumed.lookup k with
    | some rv =>
      if rv = v then
        ((k, v) :: (resolveArgs rest resumed).1, (resolveArgs rest resumed).2)
      else
        ((k, rv) :: (resolveArgs rest resumed).1,
          ArgWarning.conflict k rv v :: (resolveArgs rest resumed).2)
    | none =>
      ((k, v) :: (resolveArgs rest resumed).1,
        ArgWarning.newArg k v :: (resolveArgs rest resumed).2)

theorem lookup_cons_self {V : Type} (k : String) (v : V) (rest : List (String × V)) :
    ((k, v) :: rest).lookup k = some v := by
  simp [List.lookup]

theorem lookup_cons_ne {V : Type} (k k1 : String) (v1 : V) (rest : List (String × V))
    (h : k ≠ k1) : ((k1, v1) :: rest).lookup k = rest.lookup k := by
  have hb : (k == k1) = false := beq_eq_false_iff_ne.mpr h
  simp [List.lookup, hb]

theorem resolveArgs_cons_conflict {V : Type} [DecidableEq V] (k : String) (v rv : V)
    (rest resumed : List (String × V)) (h : resumed.lookup k = some rv)
    (hne : ¬ rv = v) :
    resolveArgs ((k, v) :: rest) resumed
      = ((k, rv) :: (resolveArgs rest resumed).1,
          ArgWarning.conflict k rv v :: (resolveArgs rest resumed).2) := by
  simp only [resolveArgs]
  rw [h]
  simp [hne]

theorem resolveArgs_cons_same {V : Type} [DecidableEq V] (k : String) (v : V)
    (rest resumed : List (String × V)) (h : resumed.lookup k = some v) :
    resolveArgs ((k, v) :: rest) resumed
      = ((k, v) :: (resolveArgs rest resumed).1, (resolveArgs rest resumed).2) := by
  simp only [resolveArgs]
  rw [h]
  simp

theorem resolveArgs_cons_none {V : Type} [DecidableEq V] (k : String) (v : V)
    (rest resumed : List (String × V)) (h : resumed.lookup k = none) :
    resolveArgs ((k, v) :: rest) resumed
      = ((k, v) :: (resolveArgs rest resumed).1,
          ArgWarning.newArg k v :: (resolveArgs rest resumed).2) := by
  simp only [resolveArgs]
  rw [h]

/-- The full resume path: overwrite the persisted `resume` flag (line 189),
then merge (lines 194-204). -/
def resumeMerge {V : Type} [DecidableEq V] (args persisted : List (String × V))
    (trueV : V) : List (String × V) × List (ArgWarning V) :=
  resolveArgs args (setKey "resume" trueV persisted)

/-- C6: for every conflicting key — present in the persisted file with a
value different from the freshly supplied one — the persisted value becomes
the effective value and a conflict warning is emitted; the merge is a total
function, so no exception is raised. -/
theorem resume_conflict_persisted_wins {V : Type} [DecidableEq V]
    (args persisted : List (String × V)) (trueV : V) (k : String) (v rv : V)
    (hv : args.lookup k = some v)
    (hrv : (setKey "resume" trueV persisted).lookup k = some rv)
    (hne : rv ≠ v) :
    (resumeMerge args persisted trueV).1.lookup k = some rv
    ∧ ArgWarning.conflict k rv v ∈ (resumeMerge args persisted trueV).2 := by
  unfold resumeMerge
  revert hv
  induction args with
  | nil =>
    intro hv
    simp at hv
  | cons kv rest ih =>
    intro hv
    obtain ⟨k1, v1⟩ := kv
    by_cases hk : k1 = k
    · subst hk
      have hv1 : v1 = v := by
        rw [lookup_cons_self] at hv
        exact Option.some.inj hv
      subst hv1
      rw [resolveArgs_cons_conflict k1 v1 rv rest _ hrv hne]
      exact ⟨lookup_cons_self k1 rv _, List.mem_cons_self _ _⟩
    · have hkk : k ≠ k1 := fun h => hk h.symm
      have hv' : rest.lookup k = some v := by
        rw [lookup_cons_ne _ _ _ _ hkk] at hv
        exact hv
      obtain ⟨ih1, ih2⟩ := ih hv'
      cases hmv : (setKey "resume" trueV persisted).lookup k1 with
      | some rv1 =>
        by_cases heq : rv1 = v1
        · subst heq
          rw [resolveArgs_cons_same k1 rv1 rest _ hmv]
          exact ⟨by rw [lookup_cons_ne _ _ _ _ hkk]; exact ih1, ih2⟩
        · rw [resolveArgs_cons_conflict k1 v1 rv1 rest _ hmv heq]
          exact ⟨by rw [lookup_cons_ne _ _ _ _ hkk]; exact ih1,
            List.mem_cons_of_mem _ ih2⟩
      | none =>
        rw [resolveArgs_cons_none k1 v1 rest _ hmv]
        exact ⟨by rw [lookup_cons_ne _ _ _ _ hkk]; exact ih1,
          List.mem_cons_of_mem _ ih2⟩

theorem resume_conflict_persisted_wins_witness :
    (resumeMerge [("batch_p", 32)] [("batch_p", 16)] 1).1.lookup "batch_p" = some 16
    ∧ ArgWarning.conflict "batch_p" 16 32 ∈ (resumeMerge [("batch_p", 32)] [("batch_p", 16)] 1).2 :=
  resume_conflict_persisted_wins [("batch_p", 32)] [("batch_p", 16)] 1 "batch_p" 32 16
    (by decide) (by decide) (by decide)

/-! ## The pre-training prelude of `main` (train.py lines 175-239)

Straight-line model of the effectful prelude: the resume branch (lines
182-204), the fresh-run directory check and `args.json` write (lines
206-220), the logging setup (lines 222-223, which creates log files under
the experiment root), and the fatal `train_set` / `image_root` checks (lines
231-239). Resume-merge warnings are modelled separately by `resolveArgs`. -/

/-- Observable effects of the prelude, in program order. -/
inductive MainEv where
  | printMsg (msg : String)
  | logErrorMsg (msg : String)
  | raiseIOError (msg : String)
  | mkdirRoot
  | writeArgsJson
  | openLogFiles
deriving DecidableEq

/-- The inputs that determine the prelude's control flow. -/
structure MainEnv where
  resume : Bool
  argsFileExists : Bool
  rootExists : Bool
  rootNonempty : Bool
  trainSet : Option String
  imageRoot : Option String
deriving DecidableEq

/-- The prelude's result: its ordered effects, the exit code when it
terminates the process, and whether it ended in an uncaught exception. -/
structure MainOutcome where
  events : List MainEv
  exitCode : Option Nat
  raised : Bool
deriving DecidableEq

/-- Logging setup and the two fatal argument checks (lines 222-239), entered
with the effects already performed. -/
def afterArgs (env : MainEnv) (evs : List MainEv) : MainOutcome :=
  if env.trainSet = none then
    { events := (evs ++ [MainEv.openLogFiles])
        ++ [MainEv.printMsg "usage",
            MainEv.logErrorMsg "You did not specify the train_set argument!"],
      exitCode := some 1, raised := false }
  else if env.imageRoot = none then
    { events := (evs ++ [MainEv.openLogFiles])
        ++ [MainEv.printMsg "usage",
            MainEv.logErrorMsg "You did not specify the required image_root argument!"],
      exitCode := some 1, raised := false }
  else
    { events := evs ++ [MainEv.openLogFiles], exitCode := none, raised := false }

/-- The prelude of `main` (lines 175-239). An uncaught `IOError` terminates
the interpreter with a traceback and exit status 1. -/
def mainPrelude (env : MainEnv) : MainOutcome :=
  if env.resume then
    if env.argsFileExists then
      afterArgs env [MainEv.printMsg "Loading args from args.json."]
    else
      { events := [MainEv.raiseIOError "args.json not found"],
        exitCode := some 1, raised := true }
  else
    if env.rootExists && env.rootNonempty then
      { events := [MainEv.printMsg
          "The directory already exists and is not empty. If you want to resume training, append --resume to your call."],
        exitCode := some 1, raised := false }
    else
      afterArgs env
        ((if env.rootExists then [] else [MainEv.mkdirRoot]) ++ [MainEv.writeArgsJson])

/-- An effect that surfaces a diagnostic to the user. -/
def isDiagnostic : MainEv → Bool
  | MainEv.printMsg _ => true
  | MainEv.logErrorMsg _ => true
  | MainEv.raiseIOError _ => true
  | _ => false

/-- C9: a non-resume invocation whose experiment root exists and is
non-empty prints a diagnostic and exits with status 1, writing and creating
nothing. -/
theorem bail_on_nonempty_root (env : MainEnv)
    (hres : env.resume = false) (hex : env.rootExists = true)
    (hne : env.rootNonempty = true) :
    (mainPrelude env).exitCode = some 1
    ∧ (mainPrelude env).raised = false
    ∧ (mainPrelude env).events = [MainEv.printMsg
        "The directory already exists and is not empty. If you want to resume training, append --resume to your call."] := by
  simp [mainPrelude, hres, hex, hne]

theorem bail_on_nonempty_root_witness :
    (mainPrelude ⟨false, false, true, true, some "t.csv", some "img"⟩).exitCode = some 1
    ∧ (mainPrelude ⟨false, false, true, true, some "t.csv", some "img"⟩).raised = false
    ∧ (mainPrelude ⟨false, false, true, true, some "t.csv", some "img"⟩).events
        = [MainEv.printMsg
          "The directory already exists and is not empty. If you want to resume training, append --resume to your call."] :=
  bail_on_nonempty_root ⟨false, false, true, true, some "t.csv", some "img"⟩ rfl rfl rfl

/-- C7 (counterexample): a fresh run with a missing `train_set` ends in a
fatal exit with status 1, but `args.json` has already been written (and the
experiment root created) before that exit — the claimed
no-mutation-before-fatal-exit guarantee fails. -/
theorem fatal_exit_writes_args_counterexample :
    (mainPrelude ⟨false, false, false, false, none, some "img"⟩).exitCode = some 1
    ∧ MainEv.writeArgsJson ∈ (mainPrelude ⟨false, false, false, false, none, some "img"⟩).events
    ∧ MainEv.mkdirRoot ∈ (mainPrelude ⟨false, false, false, false, none, some "img"⟩).events := by
  decide

/-- C7 (amended): every invocation that ends in a fatal error prints a
diagnostic and terminates with exit status 1; the exit precedes any write to
persisted state on the nonempty-experiment-root bailout and on the
resume-without-args.json error, but a fresh run that fails the
`train_set`/`image_root` checks has already written `args.json` (and created
the root and log files) before its fatal exit. -/
theorem fatal_exit_diagnostics_amended (env : MainEnv) (c : Nat)
    (h : (mainPrelude env).exitCode = some c) :
    c = 1
    ∧ (mainPrelude env).events.any isDiagnostic = true
    ∧ (env.resume = false → env.rootExists = true → env.rootNonempty = true →
        MainEv.writeArgsJson ∉ (mainPrelude env).events
        ∧ MainEv.mkdirRoot ∉ (mainPrelude env).events
        ∧ MainEv.openLogFiles ∉ (mainPrelude env).events)
    ∧ (env.resume = true → env.argsFileExists = false →
        MainEv.writeArgsJson ∉ (mainPrelude env).events
        ∧ MainEv.mkdirRoot ∉ (mainPrelude env).events
        ∧ MainEv.openLogFiles ∉ (mainPrelude env).events)
    ∧ (env.resume = false → (env.rootExists = false ∨ env.rootNonempty = false) →
        MainEv.writeArgsJson ∈ (mainPrelude env).events) := by
  obtain ⟨res, afe, re, rne, ts, ir⟩ := env
  cases res <;> cases afe <;> cases re <;> cases rne <;> cases ts <;> cases ir <;>
    simp_all [mainPrelude, afterArgs, isDiagnostic]

theorem fatal_exit_diagnostics_amended_witness :
    (1 : Nat) = 1
    ∧ (mainPrelude ⟨false, false, false, false, none, some "img"⟩).events.any isDiagnostic = true
    ∧ ((false : Bool) = false → (false : Bool) = true → (false : Bool) = true →
        MainEv.writeArgsJson ∉ (mainPrelude ⟨false, false, false, false, none, some "img"⟩).events
        ∧ MainEv.mkdirRoot ∉ (mainPrelude ⟨false, false, false, false, none, some "img"⟩).events
        ∧ MainEv.openLogFiles ∉ (mainPrelude ⟨false, false, false, false, none, some "img"⟩).events)
    ∧ ((false : Bool) = true → (false : Bool) = false →
        MainEv.writeArgsJson ∉ (mainPrelude ⟨false, false, false, false, none, some "img"⟩).events
        ∧ MainEv.mkdirRoot ∉ (mainPrelude ⟨false, false, false, false, none, some "img"⟩).events
        ∧ MainEv.openLogFiles ∉ (mainPrelude ⟨false, false, false, false, none, some "img"⟩).events)
    ∧ ((false : Bool) = false → ((false : Bool) = false ∨ (false : Bool) = false) →
        MainEv.writeArgsJson ∈ (mainPrelude ⟨false, false, false, false, none, some "img"⟩).events) :=
  fatal_exit_diagnostics_amended ⟨false, false, false, false, none, some "img"⟩ 1 rfl

/-! ## The training loop and the final checkpoint (train.py lines 453-532)

Modelled from the spec: `lbtoolbox.Uninterrupt` (not under `src/`) defers
SIGINT/SIGTERM so that the in-flight iteration always completes; the
interruption flag `u.interrupted` is observed only at the end of a completed
iteration (lines 523-526). The rest is from `train.py`: each iteration `i`
of `range(start_step, train_iterations)` runs the training step (binding the
fetched `step` value `i+1`), logs, and saves a periodic checkpoint when
`checkpoint_frequency > 0` and `step % checkpoint_frequency == 0` (lines
456-526); after the loop, one final checkpoint is saved at the last bound
`step` (lines 528-532) — a reference that raises `NameError` when the loop
body never executed. -/

/-- Observable events of the training loop. -/
inductive StepEv where
  | stepDone (i : Nat)
  | logLine (step : Nat)
  | periodicCkpt (step : Nat)
  | finalCkpt (step : Nat)
  | nameErrorRaised
deriving DecidableEq

/-- The loop body, fuelled by the remaining iteration count; returns the
events and the last value bound to the Python variable `step` (`none` when
the body never executed). -/
def runItersFuel (T freq : Nat) (intr : Nat → Bool) :
    Nat → Nat → Option Nat → List StepEv × Option Nat
  | 0, _, last => ([], last)
  | fuel + 1, i, last =>
    if i < T then
      if intr i then
        ([StepEv.stepDone i, StepEv.logLine (i + 1)]
          ++ (if 0 < freq ∧ (i + 1) % freq = 0 then [StepEv.periodicCkpt (i + 1)] else []),
         some (i + 1))
      else
        (([StepEv.stepDone i, StepEv.logLine (i + 1)]
            ++ (if 0 < freq ∧ (i + 1) % freq = 0 then [StepEv.periodicCkpt (i + 1)] else []))
          ++ (runItersFuel T freq intr fuel (i + 1) (some (i + 1))).1,
         (runItersFuel T freq intr fuel (i + 1) (some (i + 1))).2)
    else ([], last)

/-- The complete loop of lines 456-532, including the final checkpoint save
(or the `NameError` it raises when `step` was never bound). -/
def trainLoop (T freq startStep : Nat) (intr : Nat → Bool) : List StepEv :=
  (runItersFuel T freq intr (T - startStep) startStep none).1
    ++ (match (runItersFuel T freq intr (T - startStep) startStep none).2 with
        | some s => [StepEv.finalCkpt s]
        | none => [StepEv.nameErrorRaised])

/-- C10: when the restored global step is at least the configured iteration
count, the loop body executes zero iterations, the final save references the
never-bound loop variable `step`, `NameError` is raised, and no final
checkpoint is persisted. -/
theorem zero_iterations_name_error (T freq startStep : Nat) (intr : Nat → Bool)
    (h : T ≤ startStep) :
    trainLoop T freq startStep intr = [StepEv.nameErrorRaised]
    ∧ ∀ s, StepEv.finalCkpt s ∉ trainLoop T freq startStep intr := by
  have hfuel : T - startStep = 0 := by omega
  unfold trainLoop
  rw [hfuel]
  constructor
  · simp [runItersFuel]
  · intro s
    simp [runItersFuel]

theorem zero_iterations_name_error_witness :
    trainLoop 5 1000 5 (fun _ => false) = [StepEv.nameErrorRaised]
    ∧ ∀ s, StepEv.finalCkpt s ∉ trainLoop 5 1000 5 (fun _ => false) :=
  zero_iterations_name_error 5 1000 5 (fun _ => false) (by decide)

/-- C8 (failing input): a resumed run whose restored global step equals the
configured iteration count exits the loop with `NameError` and persists no
final checkpoint, violating the always-one-final-checkpoint contract; by
contrast, a run interrupted after its first step completes that step in full
and persists exactly one final checkpoint. -/
theorem final_checkpoint_contract_violation :
    trainLoop 5 1000 5 (fun _ => false) = [StepEv.nameErrorRaised]
    ∧ trainLoop 5 1000 0 (fun i => i == 0)
        = [StepEv.stepDone 0, StepEv.logLine 1, StepEv.finalCkpt 1] := by
  decide

end TripletReid
